import Mathlib

/-!
Shallow embedding of the M/M/c queueing metric engine of this repository
(`calc.py`, together with the sweep entry points of `contour.py` and
`plot.py`).

Python floats are modelled as rationals (every operation the code performs
is field arithmetic, so `ℚ` is an exact model of the ideal-real semantics).
Operations that can raise are modelled with `Except`:
* `ZeroDivisionError` for division by a zero float (including `0.0 ** n`
  with `n < 0`),
* `ValueError` for `math.factorial` applied to a negative integer.
The IEEE sentinel values returned by the code (`float('inf')`, `np.nan`)
are modelled by dedicated constructors of `PyFloat`.
-/

/-- Exceptions the embedded code can raise. -/
inductive PyErr where
  | zeroDivisionError
  | valueError
deriving DecidableEq

/-- A Python float result: a finite (rational) value, `float('inf')`, or `np.nan`. -/
inductive PyFloat where
  | fin (x : ℚ)
  | inf
  | nan
deriving DecidableEq

/-- Python float division: raises `ZeroDivisionError` on a zero divisor,
otherwise produces the exact quotient. -/
def pydiv (x y : ℚ) : Except PyErr ℚ :=
  if y = 0 then .error .zeroDivisionError else .ok (x / y)

/-- The partial sum `Σ_{n=0}^{c-1} a^n / n!` accumulated by the `for` loop of
`calc.calculate_lq` (with `a = c * rho`) and by the generator expression
`sum((r**n) / math.factorial(n) for n in range(servers))` of
`contour.calculate_average_queue_time` (with `a = r`). -/
def erlangSum (a : ℚ) (c : ℕ) : ℚ :=
  ∑ n ∈ Finset.range c, a ^ n / (Nat.factorial n : ℚ)

/-- Term `pc_numerator = ((c * rho)**c) / (math.factorial(c) * (1 - rho))` from
`calc.calculate_lq`. -/
def pc_numerator (rho : ℚ) (c : ℕ) : ℚ :=
  ((c : ℚ) * rho) ^ c / ((Nat.factorial c : ℚ) * (1 - rho))

/-- Embeds `calc.calculate_lq(rho, c)`: mean queue length Lq of the M/M/c queue,
via the Erlang-C formula.  Returns `inf` when `rho >= 1`.  For `c < 0`
(and `rho < 1`) the Python code raises: `(c * rho) ** c` raises
`ZeroDivisionError` when the base is zero, otherwise `math.factorial(c)`
raises `ValueError`. -/
def calculate_lq (rho : ℚ) (c : ℤ) : Except PyErr PyFloat :=
  if 1 ≤ rho then .ok .inf
  else if c < 0 then
    if (c : ℚ) * rho = 0 then .error .zeroDivisionError else .error .valueError
  else
    match pydiv (pc_numerator rho c.toNat)
        (erlangSum ((c.toNat : ℚ) * rho) c.toNat + pc_numerator rho c.toNat) with
    | .error e => .error e
    | .ok pc => .ok (.fin (pc * rho / (1 - rho)))

/-- Embeds `calc.calculate_wq(lq, mu) = lq / mu`. -/
def calculate_wq (lq mu : ℚ) : Except PyErr ℚ :=
  pydiv lq mu

/-- Embeds `calc.calculate_l(lq, rho, c) = lq + c * rho`. -/
def calculate_l (lq rho : ℚ) (c : ℤ) : ℚ :=
  lq + (c : ℚ) * rho

/-- Embeds `calc.calculate_w(wq, mu) = wq + 1 / mu`. -/
def calculate_w (wq mu : ℚ) : Except PyErr ℚ :=
  match pydiv 1 mu with
  | .error e => .error e
  | .ok inv => .ok (wq + inv)

/-- Embeds `calc.calculate_rho(lambda_val, mu, c) = lambda_val / (c * mu)`. -/
def calculate_rho (lambda_val mu : ℚ) (c : ℤ) : Except PyErr ℚ :=
  pydiv lambda_val ((c : ℚ) * mu)

/-- Embeds `calc.calculate_lambda(rho, mu, c) = rho * c * mu`. -/
def calculate_lambda (rho mu : ℚ) (c : ℤ) : ℚ :=
  rho * (c : ℚ) * mu

/-- Embeds `calc.calculate_mu(lambda_val, rho, c) = lambda_val / (rho * c)`. -/
def calculate_mu (lambda_val rho : ℚ) (c : ℤ) : Except PyErr ℚ :=
  pydiv lambda_val (rho * (c : ℚ))

/-- Term `final_term = (r**servers / math.factorial(servers)) * (1 / (1 - rho))`
inside `contour.calculate_average_queue_time`. -/
def final_term (r rho : ℚ) (servers : ℕ) : ℚ :=
  (r ^ servers / (Nat.factorial servers : ℚ)) * (1 / (1 - rho))

/-- The direct P0-based mean-queue-length expression
`lq = ((r**servers * rho) / (math.factorial(servers) * (1 - rho)**2)) * p0`
inside `contour.calculate_average_queue_time`. -/
def lq_direct (r rho p0 : ℚ) (servers : ℕ) : ℚ :=
  ((r ^ servers * rho) / ((Nat.factorial servers : ℚ) * (1 - rho) ^ 2)) * p0

/-- Embeds `contour.calculate_average_queue_time(arrival_rate, service_rate, servers)`:
mean wait Wq over the sweep grid; returns `np.nan` on the unstable or
degenerate region.  Inside the `try` block only `ValueError` and
`OverflowError` are converted to `nan` (a negative `servers` reaching the
factorial); a `ZeroDivisionError` propagates. -/
def calculate_average_queue_time (arrival_rate service_rate : ℚ) (servers : ℤ) :
    Except PyErr PyFloat :=
  if (servers : ℚ) * service_rate ≤ arrival_rate ∨ service_rate ≤ 0 then .ok .nan
  else
    match calculate_rho arrival_rate service_rate servers with
    | .error e => .error e
    | .ok rho =>
      if 1 ≤ rho then .ok .nan
      else if servers < 0 then
        .ok .nan
      else
        match pydiv 1 (erlangSum (arrival_rate / service_rate) servers.toNat +
            final_term (arrival_rate / service_rate) rho servers.toNat) with
        | .error e => .error e
        | .ok p0 =>
          if arrival_rate = 0 then .ok (.fin 0)
          else
            match pydiv (lq_direct (arrival_rate / service_rate) rho p0 servers.toNat)
                arrival_rate with
            | .error e => .error e
            | .ok wq => .ok (.fin wq)

/-- Embeds `plot.calculate_wq_for_plot(arrival_rate, service_rate, servers)`:
mean wait Wq over the sweep grid, built on `calc.calculate_lq` and
`calc.calculate_wq`.  The `try` block converts `ValueError` and
`OverflowError` to `nan`; a `ZeroDivisionError` propagates. -/
def calculate_wq_for_plot (arrival_rate service_rate : ℚ) (servers : ℤ) :
    Except PyErr PyFloat :=
  if (servers : ℚ) * service_rate ≤ arrival_rate ∨ service_rate ≤ 0 then .ok .nan
  else
    match calculate_rho arrival_rate service_rate servers with
    | .error e => .error e
    | .ok rho =>
      if 1 ≤ rho then .ok .nan
      else
        match calculate_lq rho servers with
        | .error .valueError => .ok .nan
        | .error e => .error e
        | .ok (.fin lq) =>
          match calculate_wq lq service_rate with
          | .error e => .error e
          | .ok wq => if arrival_rate = 0 then .ok (.fin 0) else .ok (.fin wq)
        | .ok v => if arrival_rate = 0 then .ok (.fin 0) else .ok v

/-- Spec formula `S = Σ_{n=0}^{c-1} aⁿ/n!` (spec section 4.2), written from the
spec to be compared with the code-side definitions. -/
def spec_S (a : ℚ) (c : ℕ) : ℚ :=
  ∑ n ∈ Finset.range c, a ^ n / (Nat.factorial n : ℚ)

/-- Spec formula `T = a^c / (c! * (1 - rho))` (spec section 4.2). -/
def spec_T (a rho : ℚ) (c : ℕ) : ℚ :=
  a ^ c / ((Nat.factorial c : ℚ) * (1 - rho))

/-- Spec formula `Pc = T / (S + T)` (spec section 4.2), the Erlang-C waiting
probability. -/
def spec_Pc (a rho : ℚ) (c : ℕ) : ℚ :=
  spec_T a rho c / (spec_S a c + spec_T a rho c)

/-- Auxiliary quantity for the monotonicity analysis of `calculate_lq`:
`ratioSum rho c = Σ_{n=0}^{c-1} (c!/n!) / (c*rho)^(c-n)`, so that for
`0 < rho < 1` the code value satisfies `S / T = (1 - rho) * ratioSum`. -/
def ratioSum (rho : ℚ) (c : ℕ) : ℚ :=
  ∑ n ∈ Finset.range c,
    ((Nat.factorial c : ℚ) / (Nat.factorial n : ℚ)) / ((c : ℚ) * rho) ^ (c - n)

/-- Quantity `lqD rho c = (1 - rho) * ratioSum rho c`; for `0 < rho < 1` the mean queue
length computed by the code equals `(rho / (1 - rho)) * (1 / (1 + lqD rho c))`. -/
def lqD (rho : ℚ) (c : ℕ) : ℚ :=
  (1 - rho) * ratioSum rho c

/-- The finite value produced by `calc.calculate_lq` on the stable branch
(`0 <= rho < 1`, `c >= 0`): `pc * rho / (1 - rho)` with
`pc = pc_numerator / (sum_terms + pc_numerator)`. -/
def lqVal (rho : ℚ) (m : ℕ) : ℚ :=
  pc_numerator rho m / (erlangSum ((m : ℚ) * rho) m + pc_numerator rho m) * rho / (1 - rho)

/-! ### Basic arithmetic facts about the building blocks -/

theorem pydiv_ok (x y : ℚ) (hy : y ≠ 0) : pydiv x y = .ok (x / y) := by
  simp [pydiv, hy]

theorem factorial_q_pos (n : ℕ) : (0 : ℚ) < (Nat.factorial n : ℚ) := by
  exact_mod_cast n.factorial_pos

theorem erlangSum_nonneg (a : ℚ) (c : ℕ) (ha : 0 ≤ a) : 0 ≤ erlangSum a c := by
  refine Finset.sum_nonneg fun n _ => ?_
  exact div_nonneg (pow_nonneg ha n) (factorial_q_pos n).le

theorem one_le_erlangSum (a : ℚ) (c : ℕ) (ha : 0 ≤ a) (hc : 1 ≤ c) :
    1 ≤ erlangSum a c := by
  have h0 : (0 : ℕ) ∈ Finset.range c := Finset.mem_range.mpr hc
  have h := Finset.single_le_sum
    (f := fun n => a ^ n / (Nat.factorial n : ℚ))
    (fun n _ => div_nonneg (pow_nonneg ha n) (factorial_q_pos n).le) h0
  simpa [erlangSum, Nat.factorial] using h

theorem erlangSum_zero_left (c : ℕ) (hc : 1 ≤ c) : erlangSum 0 c = 1 := by
  unfold erlangSum
  rw [Finset.sum_eq_single 0]
  · simp
  · intro b _ hb
    simp [zero_pow hb]
  · intro h
    exact absurd (Finset.mem_range.mpr hc) h

theorem pc_numerator_nonneg (rho : ℚ) (c : ℕ) (h0 : 0 ≤ rho) (h1 : rho < 1) :
    0 ≤ pc_numerator rho c := by
  unfold pc_numerator
  have ha : (0 : ℚ) ≤ (c : ℚ) * rho := mul_nonneg (Nat.cast_nonneg c) h0
  have h2 : (0 : ℚ) < 1 - rho := by linarith
  exact div_nonneg (pow_nonneg ha c) (mul_nonneg (factorial_q_pos c).le h2.le)

theorem pc_numerator_pos (rho : ℚ) (c : ℕ) (h0 : 0 < rho) (h1 : rho < 1) (hc : 1 ≤ c) :
    0 < pc_numerator rho c := by
  unfold pc_numerator
  have hcq : (0 : ℚ) < (c : ℚ) := by exact_mod_cast hc
  have ha : (0 : ℚ) < (c : ℚ) * rho := mul_pos hcq h0
  have h2 : (0 : ℚ) < 1 - rho := by linarith
  exact div_pos (pow_pos ha c) (mul_pos (factorial_q_pos c) h2)

theorem final_term_nonneg (r rho : ℚ) (m : ℕ) (hr : 0 ≤ r) (h1 : rho < 1) :
    0 ≤ final_term r rho m := by
  unfold final_term
  have h2 : (0 : ℚ) < 1 - rho := by linarith
  exact mul_nonneg (div_nonneg (pow_nonneg hr m) (factorial_q_pos m).le)
    (by positivity)

theorem final_term_eq_pc_numerator (rho : ℚ) (m : ℕ) :
    final_term ((m : ℚ) * rho) rho m = pc_numerator rho m := by
  unfold final_term pc_numerator
  rw [div_mul_div_comm, mul_one]

/-! ### Evaluation of `calculate_lq` on the stable branch -/

theorem calculate_lq_eval (rho : ℚ) (c : ℤ) (h0 : 0 ≤ rho) (h1 : rho < 1) (hc : 0 ≤ c)
    (hm : 1 ≤ c.toNat) :
    calculate_lq rho c = .ok (.fin (lqVal rho c.toNat)) := by
  have hnot : ¬ (1 ≤ rho) := not_le.mpr h1
  have hcn : ¬ (c < 0) := by omega
  have ha : (0 : ℚ) ≤ (c.toNat : ℚ) * rho := mul_nonneg (Nat.cast_nonneg _) h0
  have hden : erlangSum ((c.toNat : ℚ) * rho) c.toNat + pc_numerator rho c.toNat ≠ 0 := by
    have hA := one_le_erlangSum ((c.toNat : ℚ) * rho) c.toNat ha hm
    have hB := pc_numerator_nonneg rho c.toNat h0 h1
    positivity
  rw [calculate_lq, if_neg hnot, if_neg hcn, pydiv_ok _ _ hden]
  rfl

theorem lqVal_nonneg (rho : ℚ) (m : ℕ) (h0 : 0 ≤ rho) (h1 : rho < 1) (hm : 1 ≤ m) :
    0 ≤ lqVal rho m := by
  unfold lqVal
  have ha : (0 : ℚ) ≤ (m : ℚ) * rho := mul_nonneg (Nat.cast_nonneg _) h0
  have hA := one_le_erlangSum ((m : ℚ) * rho) m ha hm
  have hB := pc_numerator_nonneg rho m h0 h1
  have h2 : (0 : ℚ) < 1 - rho := by linarith
  have hpc : 0 ≤ pc_numerator rho m / (erlangSum ((m : ℚ) * rho) m + pc_numerator rho m) :=
    div_nonneg hB (by linarith)
  exact div_nonneg (mul_nonneg hpc h0) h2.le

/-! ### Evaluation of the sweep entry points on the stable region -/

theorem contour_eval (lambda_val mu : ℚ) (c : ℤ) (hl : 0 ≤ lambda_val) (hmu : 0 < mu)
    (hc : 1 ≤ c) (hlt : lambda_val < (c : ℚ) * mu) :
    calculate_average_queue_time lambda_val mu c =
      if lambda_val = 0 then .ok (.fin 0)
      else .ok (.fin (lq_direct (lambda_val / mu) (lambda_val / ((c : ℚ) * mu))
          (1 / (erlangSum (lambda_val / mu) c.toNat +
            final_term (lambda_val / mu) (lambda_val / ((c : ℚ) * mu)) c.toNat)) c.toNat /
          lambda_val)) := by
  have hcq : (0 : ℚ) < (c : ℚ) := by exact_mod_cast (by omega : (0 : ℤ) < c)
  have hcmu : (0 : ℚ) < (c : ℚ) * mu := mul_pos hcq hmu
  have hguard : ¬ ((c : ℚ) * mu ≤ lambda_val ∨ mu ≤ 0) := by
    push_neg
    exact ⟨hlt, hmu⟩
  have hrho : lambda_val / ((c : ℚ) * mu) < 1 := (div_lt_one hcmu).mpr hlt
  have hcn : ¬ (c < 0) := by omega
  have hr : (0 : ℚ) ≤ lambda_val / mu := div_nonneg hl hmu.le
  have hm : 1 ≤ c.toNat := by omega
  have hden : erlangSum (lambda_val / mu) c.toNat +
      final_term (lambda_val / mu) (lambda_val / ((c : ℚ) * mu)) c.toNat ≠ 0 := by
    have h1 := one_le_erlangSum (lambda_val / mu) c.toNat hr hm
    have h2 := final_term_nonneg (lambda_val / mu) (lambda_val / ((c : ℚ) * mu)) c.toNat hr hrho
    positivity
  rw [calculate_average_queue_time, if_neg hguard, calculate_rho, pydiv_ok _ _ hcmu.ne']
  show (if 1 ≤ lambda_val / ((c : ℚ) * mu) then Except.ok PyFloat.nan else _) = _
  rw [if_neg (not_le.mpr hrho), if_neg hcn, pydiv_ok _ _ hden]
  show (if lambda_val = 0 then Except.ok (PyFloat.fin 0) else _) = _
  by_cases hz : lambda_val = 0
  · rw [if_pos hz, if_pos hz]
  · rw [if_neg hz, if_neg hz, pydiv_ok _ _ hz]

theorem plot_eval (lambda_val mu : ℚ) (c : ℤ) (hl : 0 ≤ lambda_val) (hmu : 0 < mu)
    (hc : 1 ≤ c) (hlt : lambda_val < (c : ℚ) * mu) :
    calculate_wq_for_plot lambda_val mu c =
      if lambda_val = 0 then .ok (.fin 0)
      else .ok (.fin (lqVal (lambda_val / ((c : ℚ) * mu)) c.toNat / mu)) := by
  have hcq : (0 : ℚ) < (c : ℚ) := by exact_mod_cast (by omega : (0 : ℤ) < c)
  have hcmu : (0 : ℚ) < (c : ℚ) * mu := mul_pos hcq hmu
  have hguard : ¬ ((c : ℚ) * mu ≤ lambda_val ∨ mu ≤ 0) := by
    push_neg
    exact ⟨hlt, hmu⟩
  have hrho0 : 0 ≤ lambda_val / ((c : ℚ) * mu) := div_nonneg hl hcmu.le
  have hrho : lambda_val / ((c : ℚ) * mu) < 1 := (div_lt_one hcmu).mpr hlt
  have hm : 1 ≤ c.toNat := by omega
  rw [calculate_wq_for_plot, if_neg hguard, calculate_rho, pydiv_ok _ _ hcmu.ne']
  show (if 1 ≤ lambda_val / ((c : ℚ) * mu) then Except.ok PyFloat.nan else _) = _
  rw [if_neg (not_le.mpr hrho),
    calculate_lq_eval (lambda_val / ((c : ℚ) * mu)) c hrho0 hrho (by omega) hm]
  show (match calculate_wq (lqVal (lambda_val / ((c : ℚ) * mu)) c.toNat) mu with
    | .error e => Except.error e
    | .ok wq => if lambda_val = 0 then Except.ok (PyFloat.fin 0)
        else Except.ok (PyFloat.fin wq)) = _
  rw [calculate_wq, pydiv_ok _ _ hmu.ne']

theorem calculate_lq_at_c_zero : calculate_lq (1/2) 0 = .ok (.fin 1) := by
  rw [calculate_lq]
  norm_num [pydiv, pc_numerator, erlangSum, Nat.factorial]

/-! ### Claims -/

/-- Claim C1: for every `rho` with `0 <= rho < 1` and integer `c >= 1`,
`calculate_lq(rho, c)` returns `Pc * rho / (1 - rho)` where
`Pc = T / (S + T)` is the Erlang-C waiting probability built from
`S = sum_{n=0}^{c-1} a^n/n!` and `T = a^c / (c! * (1 - rho))` with `a = c*rho`. -/
theorem claim_C1 (rho : ℚ) (c : ℤ) (h0 : 0 ≤ rho) (h1 : rho < 1) (hc : 1 ≤ c) :
    calculate_lq rho c =
      .ok (.fin (spec_Pc ((c : ℚ) * rho) rho c.toNat * rho / (1 - rho))) := by
  rw [calculate_lq_eval rho c h0 h1 (by omega) (by omega)]
  have hcast : ((c.toNat : ℕ) : ℚ) = (c : ℚ) := by
    exact_mod_cast Int.toNat_of_nonneg (show (0 : ℤ) ≤ c by omega)
  unfold lqVal spec_Pc spec_S spec_T pc_numerator erlangSum
  rw [hcast]

/-- Witness for claim C1 at `rho = 1/2`, `c = 1`. -/
theorem claim_C1_witness :
    0 ≤ (1/2 : ℚ) ∧ (1/2 : ℚ) < 1 ∧ (1 : ℤ) ≤ 1 ∧
    calculate_lq (1/2) 1 =
      .ok (.fin (spec_Pc (((1 : ℤ) : ℚ) * (1/2)) (1/2) (Int.toNat 1) * (1/2) / (1 - 1/2))) :=
  ⟨by norm_num, by norm_num, le_refl 1,
    claim_C1 (1/2) 1 (by norm_num) (by norm_num) (le_refl 1)⟩

/-- Claim C2: on the unstable/undefined region the engine returns the sentinel
and never raises: `calculate_lq` returns `inf` whenever `rho >= 1`, and both
sweep entry points return `nan` whenever `lambda >= c * mu` or `mu <= 0`. -/
theorem claim_C2 (lambda_val mu rho : ℚ) (c : ℤ) :
    (1 ≤ rho → calculate_lq rho c = .ok .inf) ∧
    ((c : ℚ) * mu ≤ lambda_val ∨ mu ≤ 0 →
      calculate_average_queue_time lambda_val mu c = .ok .nan ∧
      calculate_wq_for_plot lambda_val mu c = .ok .nan) := by
  refine ⟨fun h => ?_, fun h => ⟨?_, ?_⟩⟩
  · rw [calculate_lq, if_pos h]
  · rw [calculate_average_queue_time, if_pos h]
  · rw [calculate_wq_for_plot, if_pos h]

/-- Witness for claim C2 at `rho = 2` and `(lambda, mu, c) = (130, 20, 6)`
(an unstable grid point: `130 >= 6 * 20`). -/
theorem claim_C2_witness :
    calculate_lq 2 6 = .ok .inf ∧
    calculate_average_queue_time 130 20 6 = .ok .nan ∧
    calculate_wq_for_plot 130 20 6 = .ok .nan :=
  ⟨(claim_C2 130 20 2 6).1 (by norm_num),
    ((claim_C2 130 20 2 6).2 (by norm_num)).1,
    ((claim_C2 130 20 2 6).2 (by norm_num)).2⟩

/-- Claim C5: for `lambda >= 0`, `mu > 0`, `c >= 1` and
`rho = lambda/(c*mu) < 1`, the four metrics Lq, Wq, L, W are all produced as
finite values and are nonnegative. -/
theorem claim_C5 (lambda_val mu : ℚ) (c : ℤ) (hl : 0 ≤ lambda_val) (hmu : 0 < mu)
    (hc : 1 ≤ c) (hrho : lambda_val / ((c : ℚ) * mu) < 1) :
    ∃ lq wq w,
      calculate_lq (lambda_val / ((c : ℚ) * mu)) c = .ok (.fin lq) ∧ 0 ≤ lq ∧
      calculate_wq lq mu = .ok wq ∧ 0 ≤ wq ∧
      0 ≤ calculate_l lq (lambda_val / ((c : ℚ) * mu)) c ∧
      calculate_w wq mu = .ok w ∧ 0 ≤ w := by
  have hcq : (0 : ℚ) < (c : ℚ) := by exact_mod_cast (by omega : (0 : ℤ) < c)
  have hcmu : (0 : ℚ) < (c : ℚ) * mu := mul_pos hcq hmu
  have hrho0 : 0 ≤ lambda_val / ((c : ℚ) * mu) := div_nonneg hl hcmu.le
  have hm : 1 ≤ c.toNat := by omega
  have hlq0 : 0 ≤ lqVal (lambda_val / ((c : ℚ) * mu)) c.toNat :=
    lqVal_nonneg _ _ hrho0 hrho hm
  refine ⟨lqVal (lambda_val / ((c : ℚ) * mu)) c.toNat,
    lqVal (lambda_val / ((c : ℚ) * mu)) c.toNat / mu,
    lqVal (lambda_val / ((c : ℚ) * mu)) c.toNat / mu + 1 / mu,
    calculate_lq_eval _ c hrho0 hrho (by omega) hm, hlq0,
    by rw [calculate_wq, pydiv_ok _ _ hmu.ne'], div_nonneg hlq0 hmu.le, ?_, ?_, ?_⟩
  · rw [calculate_l]
    have : 0 ≤ (c : ℚ) * (lambda_val / ((c : ℚ) * mu)) := mul_nonneg hcq.le hrho0
    linarith
  · rw [calculate_w, pydiv_ok _ _ hmu.ne']
  · have h1 : (0 : ℚ) ≤ 1 / mu := by positivity
    have h2 : 0 ≤ lqVal (lambda_val / ((c : ℚ) * mu)) c.toNat / mu :=
      div_nonneg hlq0 hmu.le
    linarith

/-- Witness for claim C5 at `(lambda, mu, c) = (100, 20, 6)`. -/
theorem claim_C5_witness :
    0 ≤ (100 : ℚ) ∧ (0 : ℚ) < 20 ∧ (1 : ℤ) ≤ 6 ∧ (100 : ℚ) / (((6 : ℤ) : ℚ) * 20) < 1 ∧
    (∃ lq wq w,
      calculate_lq (100 / (((6 : ℤ) : ℚ) * 20)) 6 = .ok (.fin lq) ∧ 0 ≤ lq ∧
      calculate_wq lq 20 = .ok wq ∧ 0 ≤ wq ∧
      0 ≤ calculate_l lq (100 / (((6 : ℤ) : ℚ) * 20)) 6 ∧
      calculate_w wq 20 = .ok w ∧ 0 ≤ w) :=
  ⟨by norm_num, by norm_num, by norm_num, by norm_num,
    claim_C5 100 20 6 (by norm_num) (by norm_num) (by norm_num) (by norm_num)⟩

/-- Claim C6: the utilization inversion round-trips:
`calculate_lambda (calculate_rho lambda mu c) mu c = lambda`, and for
`lambda > 0` also `calculate_mu lambda (calculate_rho lambda mu c) c = mu`. -/
theorem claim_C6 (lambda_val mu : ℚ) (c : ℤ) (hl : 0 ≤ lambda_val) (hmu : 0 < mu)
    (hc : 1 ≤ c) :
    ∃ rho, calculate_rho lambda_val mu c = .ok rho ∧
      calculate_lambda rho mu c = lambda_val ∧
      (0 < lambda_val → calculate_mu lambda_val rho c = .ok mu) := by
  have hcq : (0 : ℚ) < (c : ℚ) := by exact_mod_cast (by omega : (0 : ℤ) < c)
  have hcmu : (0 : ℚ) < (c : ℚ) * mu := mul_pos hcq hmu
  refine ⟨lambda_val / ((c : ℚ) * mu),
    by rw [calculate_rho, pydiv_ok _ _ hcmu.ne'], ?_, ?_⟩
  · rw [calculate_lambda]
    field_simp
    ring
  · intro hpos
    have hrc : lambda_val / ((c : ℚ) * mu) * (c : ℚ) ≠ 0 := by
      have h1 : 0 < lambda_val / ((c : ℚ) * mu) := div_pos hpos hcmu
      positivity
    rw [calculate_mu, pydiv_ok _ _ hrc]
    have : lambda_val / (lambda_val / ((c : ℚ) * mu) * (c : ℚ)) = mu := by
      rw [div_eq_iff hrc]
      field_simp
      ring
    rw [this]

/-- Witness for claim C6 at `(lambda, mu, c) = (100, 20, 6)`. -/
theorem claim_C6_witness :
    0 ≤ (100 : ℚ) ∧ (0 : ℚ) < 20 ∧ (1 : ℤ) ≤ 6 ∧
    (∃ rho, calculate_rho 100 20 6 = .ok rho ∧
      calculate_lambda rho 20 6 = 100 ∧
      ((0 : ℚ) < 100 → calculate_mu 100 rho 6 = .ok 20)) :=
  ⟨by norm_num, by norm_num, by norm_num,
    claim_C6 100 20 6 (by norm_num) (by norm_num) (by norm_num)⟩

/-- Claim C8: with no arrivals (`lambda = 0`, `mu > 0`, `c >= 1`) both sweep
entry points return exactly 0 (a finite value, not `nan`, no exception). -/
theorem claim_C8 (mu : ℚ) (c : ℤ) (hmu : 0 < mu) (hc : 1 ≤ c) :
    calculate_average_queue_time 0 mu c = .ok (.fin 0) ∧
    calculate_wq_for_plot 0 mu c = .ok (.fin 0) := by
  have hcq : (0 : ℚ) < (c : ℚ) := by exact_mod_cast (by omega : (0 : ℤ) < c)
  have hlt : (0 : ℚ) < (c : ℚ) * mu := mul_pos hcq hmu
  constructor
  · rw [contour_eval 0 mu c le_rfl hmu hc hlt, if_pos rfl]
  · rw [plot_eval 0 mu c le_rfl hmu hc hlt, if_pos rfl]

/-- Witness for claim C8 at `(mu, c) = (20, 6)`. -/
theorem claim_C8_witness :
    (0 : ℚ) < 20 ∧ (1 : ℤ) ≤ 6 ∧
    (calculate_average_queue_time 0 20 6 = .ok (.fin 0) ∧
      calculate_wq_for_plot 0 20 6 = .ok (.fin 0)) :=
  ⟨by norm_num, by norm_num, claim_C8 20 6 (by norm_num) (by norm_num)⟩

/-- Counterexample to claim C9: `calculate_lq` does NOT fail with a hard error
for every `c < 1`: at `c = 0 < 1` and `rho = 1/2` it returns the finite value 1. -/
theorem claim_C9_counterexample :
    (0 : ℤ) < 1 ∧ calculate_lq (1/2) 0 = .ok (.fin 1) := by
  exact ⟨by norm_num, calculate_lq_at_c_zero⟩

/-- Claim C9 (amended): `calculate_wq(lq, 0)` fails with a hard error
(`ZeroDivisionError`), and `calculate_lq(rho, c)` fails with a hard error for
every negative `c` when `rho < 1`; but for `c = 0` it returns a finite number
instead of failing (`calculate_lq(1/2, 0) = 1`). -/
theorem claim_C9 (lq rho : ℚ) (c : ℤ) (hrho : rho < 1) (hcneg : c < 0) :
    calculate_wq lq 0 = .error .zeroDivisionError ∧
    (∃ e, calculate_lq rho c = .error e) ∧
    calculate_lq (1/2) 0 = .ok (.fin 1) := by
  refine ⟨?_, ?_, calculate_lq_at_c_zero⟩
  · rw [calculate_wq, pydiv, if_pos rfl]
  · rw [calculate_lq, if_neg (not_le.mpr hrho), if_pos hcneg]
    by_cases h : (c : ℚ) * rho = 0
    · exact ⟨.zeroDivisionError, by rw [if_pos h]⟩
    · exact ⟨.valueError, by rw [if_neg h]⟩

/-- Witness for claim C9 (amended) at `lq = 5`, `rho = 0`, `c = -1`. -/
theorem claim_C9_witness :
    (0 : ℚ) < 1 ∧ (-1 : ℤ) < 0 ∧
    (calculate_wq 5 0 = .error .zeroDivisionError ∧
      (∃ e, calculate_lq 0 (-1) = .error e) ∧
      calculate_lq (1/2) 0 = .ok (.fin 1)) :=
  ⟨by norm_num, by norm_num, claim_C9 5 0 (-1) (by norm_num) (by norm_num)⟩

/-- Claim C10: for every `lambda >= 0`, every `mu`, and every integer `c >= 1`,
both sweep entry points are total: they return a value (finite or the `nan`
sentinel) and never raise. -/
theorem claim_C10 (lambda_val mu : ℚ) (c : ℤ) (hl : 0 ≤ lambda_val) (hc : 1 ≤ c) :
    (∃ v, calculate_average_queue_time lambda_val mu c = .ok v ∧
      (v = .nan ∨ ∃ x, v = .fin x)) ∧
    (∃ v, calculate_wq_for_plot lambda_val mu c = .ok v ∧
      (v = .nan ∨ ∃ x, v = .fin x)) := by
  by_cases hg : (c : ℚ) * mu ≤ lambda_val ∨ mu ≤ 0
  · exact ⟨⟨.nan, by rw [calculate_average_queue_time, if_pos hg], Or.inl rfl⟩,
      ⟨.nan, by rw [calculate_wq_for_plot, if_pos hg], Or.inl rfl⟩⟩
  · push_neg at hg
    obtain ⟨hlt, hmu⟩ := hg
    constructor
    · rw [contour_eval lambda_val mu c hl hmu hc hlt]
      by_cases hz : lambda_val = 0
      · exact ⟨.fin 0, by rw [if_pos hz], Or.inr ⟨0, rfl⟩⟩
      · exact ⟨_, by rw [if_neg hz], Or.inr ⟨_, rfl⟩⟩
    · rw [plot_eval lambda_val mu c hl hmu hc hlt]
      by_cases hz : lambda_val = 0
      · exact ⟨.fin 0, by rw [if_pos hz], Or.inr ⟨0, rfl⟩⟩
      · exact ⟨_, by rw [if_neg hz], Or.inr ⟨_, rfl⟩⟩

/-- Witness for claim C10 at `(lambda, mu, c) = (100, 20, 6)`. -/
theorem claim_C10_witness :
    0 ≤ (100 : ℚ) ∧ (1 : ℤ) ≤ 6 ∧
    ((∃ v, calculate_average_queue_time 100 20 6 = .ok v ∧
      (v = .nan ∨ ∃ x, v = .fin x)) ∧
    (∃ v, calculate_wq_for_plot 100 20 6 = .ok v ∧
      (v = .nan ∨ ∃ x, v = .fin x))) :=
  ⟨by norm_num, by norm_num, claim_C10 100 20 6 (by norm_num) (by norm_num)⟩

/-! ### Equivalence of the Pc-based and the direct P0-based Lq forms -/

theorem lq_direct_eq_lqVal (rho : ℚ) (m : ℕ) (h0 : 0 ≤ rho) (h1 : rho < 1) (hm : 1 ≤ m) :
    lq_direct ((m : ℚ) * rho) rho
      (1 / (erlangSum ((m : ℚ) * rho) m + final_term ((m : ℚ) * rho) rho m)) m
      = lqVal rho m := by
  rw [final_term_eq_pc_numerator]
  have ha : (0 : ℚ) ≤ (m : ℚ) * rho := mul_nonneg (Nat.cast_nonneg _) h0
  have hS : 1 ≤ erlangSum ((m : ℚ) * rho) m := one_le_erlangSum _ _ ha hm
  have hT : 0 ≤ pc_numerator rho m := pc_numerator_nonneg rho m h0 h1
  have hr : (1 : ℚ) - rho ≠ 0 := by
    have : (0 : ℚ) < 1 - rho := by linarith
    exact this.ne'
  have hf : (Nat.factorial m : ℚ) ≠ 0 := (factorial_q_pos m).ne'
  unfold lq_direct lqVal pc_numerator
  unfold pc_numerator at hT
  set u := erlangSum ((m : ℚ) * rho) m +
    ((m : ℚ) * rho) ^ m / ((Nat.factorial m : ℚ) * (1 - rho)) with hu_def
  have hu : u ≠ 0 := by
    have : (0 : ℚ) < u := by rw [hu_def]; linarith
    exact this.ne'
  field_simp
  ring_nf
  exact Or.inl trivial

/-- Claim C4: for `0 < rho < 1` and integer `c >= 1`, the Pc-based form
computed by `calculate_lq` and the direct P0-based form computed inside
`calculate_average_queue_time` (with `r = a = c * rho` and
`p0 = 1/(S + final_term)`) yield the same value. -/
theorem claim_C4 (rho : ℚ) (c : ℤ) (h0 : 0 < rho) (h1 : rho < 1) (hc : 1 ≤ c) :
    ∃ lq, calculate_lq rho c = .ok (.fin lq) ∧
      lq = lq_direct ((c : ℚ) * rho) rho
        (1 / (erlangSum ((c : ℚ) * rho) c.toNat + final_term ((c : ℚ) * rho) rho c.toNat))
        c.toNat := by
  have hcast : ((c.toNat : ℕ) : ℚ) = (c : ℚ) := by
    exact_mod_cast Int.toNat_of_nonneg (show (0 : ℤ) ≤ c by omega)
  refine ⟨lqVal rho c.toNat, calculate_lq_eval rho c h0.le h1 (by omega) (by omega), ?_⟩
  rw [← hcast]
  exact (lq_direct_eq_lqVal rho c.toNat h0.le h1 (by omega)).symm

/-- Witness for claim C4 at `rho = 1/2`, `c = 1`. -/
theorem claim_C4_witness :
    (0 : ℚ) < 1/2 ∧ (1/2 : ℚ) < 1 ∧ (1 : ℤ) ≤ 1 ∧
    (∃ lq, calculate_lq (1/2) 1 = .ok (.fin lq) ∧
      lq = lq_direct (((1 : ℤ) : ℚ) * (1/2)) (1/2)
        (1 / (erlangSum (((1 : ℤ) : ℚ) * (1/2)) (Int.toNat 1) +
          final_term (((1 : ℤ) : ℚ) * (1/2)) (1/2) (Int.toNat 1)))
        (Int.toNat 1)) :=
  ⟨by norm_num, by norm_num, le_refl 1,
    claim_C4 (1/2) 1 (by norm_num) (by norm_num) (le_refl 1)⟩

/-! ### Little's law at the sweep level -/

theorem calculate_lq_at_contour_point :
    calculate_lq (100 / (((6 : ℤ) : ℚ) * 20)) 6 = .ok (.fin (15625/5319)) := by
  rw [calculate_lq_eval _ 6 (by norm_num) (by norm_num) (by norm_num) (by decide)]
  norm_num [lqVal, pc_numerator, erlangSum, Finset.sum_range_succ, Nat.factorial,
    show (6 : ℤ).toNat = 6 from rfl]

/-- Counterexample to claim C3: at `(lambda, mu, c) = (100, 20, 6)` (where
`rho = 5/6 < 1` and `Lq = 15625/5319`), `calculate_wq_for_plot` returns
`Lq / mu = 3125/21276`, which differs from `Lq / lambda = 15625/5319/100`,
so the plot-side sweep API violates Little's law. -/
theorem claim_C3_counterexample :
    calculate_lq (100 / (((6 : ℤ) : ℚ) * 20)) 6 = .ok (.fin (15625/5319)) ∧
    calculate_wq_for_plot 100 20 6 = .ok (.fin (3125/21276)) ∧
    (3125/21276 : ℚ) ≠ (15625/5319) / 100 := by
  refine ⟨calculate_lq_at_contour_point, ?_, by norm_num⟩
  rw [plot_eval 100 20 6 (by norm_num) (by norm_num) (by norm_num) (by norm_num),
    if_neg (by norm_num)]
  norm_num [lqVal, pc_numerator, erlangSum, Finset.sum_range_succ, Nat.factorial,
    show (6 : ℤ).toNat = 6 from rfl]

/-- Claim C3 (amended): for `lambda > 0`, `mu > 0`, `c >= 1`,
`rho = lambda/(c*mu) < 1`, the contour-side sweep API
`calculate_average_queue_time` satisfies Little's law `Wq = Lq / lambda`,
while the plot-side sweep API `calculate_wq_for_plot` instead returns
`Lq / mu` (service rate in place of arrival rate), which differs whenever
`Lq / lambda ≠ Lq / mu`. -/
theorem claim_C3 (lambda_val mu : ℚ) (c : ℤ) (hl : 0 < lambda_val) (hmu : 0 < mu)
    (hc : 1 ≤ c) (hrho : lambda_val / ((c : ℚ) * mu) < 1) :
    ∃ lq, calculate_lq (lambda_val / ((c : ℚ) * mu)) c = .ok (.fin lq) ∧
      calculate_average_queue_time lambda_val mu c = .ok (.fin (lq / lambda_val)) ∧
      calculate_wq_for_plot lambda_val mu c = .ok (.fin (lq / mu)) := by
  have hcq : (0 : ℚ) < (c : ℚ) := by exact_mod_cast (by omega : (0 : ℤ) < c)
  have hcmu : (0 : ℚ) < (c : ℚ) * mu := mul_pos hcq hmu
  have hlt : lambda_val < (c : ℚ) * mu := (div_lt_one hcmu).mp hrho
  have hrho0 : 0 ≤ lambda_val / ((c : ℚ) * mu) := div_nonneg hl.le hcmu.le
  have hm : 1 ≤ c.toNat := by omega
  have hcast : ((c.toNat : ℕ) : ℚ) = (c : ℚ) := by
    exact_mod_cast Int.toNat_of_nonneg (show (0 : ℤ) ≤ c by omega)
  refine ⟨lqVal (lambda_val / ((c : ℚ) * mu)) c.toNat,
    calculate_lq_eval _ c hrho0 hrho (by omega) hm, ?_, ?_⟩
  · rw [contour_eval lambda_val mu c hl.le hmu hc hlt, if_neg hl.ne']
    have hr : lambda_val / mu = ((c.toNat : ℕ) : ℚ) * (lambda_val / ((c : ℚ) * mu)) := by
      rw [hcast]
      field_simp
      ring
    rw [hr, lq_direct_eq_lqVal _ c.toNat hrho0 hrho hm]
  · rw [plot_eval lambda_val mu c hl.le hmu hc hlt, if_neg hl.ne']

/-- Witness for claim C3 (amended) at `(lambda, mu, c) = (100, 20, 6)`. -/
theorem claim_C3_witness :
    (0 : ℚ) < 100 ∧ (0 : ℚ) < 20 ∧ (1 : ℤ) ≤ 6 ∧ (100 : ℚ) / (((6 : ℤ) : ℚ) * 20) < 1 ∧
    (∃ lq, calculate_lq (100 / (((6 : ℤ) : ℚ) * 20)) 6 = .ok (.fin lq) ∧
      calculate_average_queue_time 100 20 6 = .ok (.fin (lq / 100)) ∧
      calculate_wq_for_plot 100 20 6 = .ok (.fin (lq / 20))) :=
  ⟨by norm_num, by norm_num, by norm_num, by norm_num,
    claim_C3 100 20 6 (by norm_num) (by norm_num) (by norm_num) (by norm_num)⟩

/-! ### Strict monotonicity of Lq in rho -/

theorem ratioSum_nonneg (rho : ℚ) (m : ℕ) (h0 : 0 ≤ rho) : 0 ≤ ratioSum rho m := by
  refine Finset.sum_nonneg fun n _ => ?_
  have ha : (0 : ℚ) ≤ (m : ℚ) * rho := mul_nonneg (Nat.cast_nonneg _) h0
  exact div_nonneg (div_nonneg (Nat.cast_nonneg _) (Nat.cast_nonneg _)) (pow_nonneg ha _)

theorem lqD_nonneg (rho : ℚ) (m : ℕ) (h0 : 0 ≤ rho) (h1 : rho ≤ 1) : 0 ≤ lqD rho m :=
  mul_nonneg (by linarith) (ratioSum_nonneg rho m h0)

theorem pc_numerator_mul_lqD (rho : ℚ) (m : ℕ) (h0 : 0 < rho) (h1 : rho < 1) (hm : 1 ≤ m) :
    pc_numerator rho m * lqD rho m = erlangSum ((m : ℚ) * rho) m := by
  have hmq : (0 : ℚ) < (m : ℚ) := by exact_mod_cast hm
  have ha : (0 : ℚ) < (m : ℚ) * rho := mul_pos hmq h0
  have hane : (m : ℚ) * rho ≠ 0 := ha.ne'
  have hr : (1 : ℚ) - rho ≠ 0 := by
    have : (0 : ℚ) < 1 - rho := by linarith
    exact this.ne'
  unfold pc_numerator lqD ratioSum erlangSum
  rw [Finset.mul_sum, Finset.mul_sum]
  refine Finset.sum_congr rfl fun n hn => ?_
  have hnm : n ≤ m := le_of_lt (Finset.mem_range.mp hn)
  have hfn : (Nat.factorial n : ℚ) ≠ 0 := (factorial_q_pos n).ne'
  have hfm : (Nat.factorial m : ℚ) ≠ 0 := (factorial_q_pos m).ne'
  have hpw : ((m : ℚ) * rho) ^ (m - n) * ((m : ℚ) * rho) ^ n = ((m : ℚ) * rho) ^ m := by
    rw [← pow_add, Nat.sub_add_cancel hnm]
  have hpne : ((m : ℚ) * rho) ^ (m - n) ≠ 0 := pow_ne_zero _ hane
  rw [← hpw]
  field_simp
  ring

theorem lqVal_closed_form (rho : ℚ) (m : ℕ) (h0 : 0 < rho) (h1 : rho < 1) (hm : 1 ≤ m) :
    lqVal rho m = rho / (1 - rho) * (1 / (1 + lqD rho m)) := by
  have hT : 0 < pc_numerator rho m := pc_numerator_pos rho m h0 h1 hm
  have hD : 0 ≤ lqD rho m := lqD_nonneg rho m h0.le h1.le
  have h1D : (0 : ℚ) < 1 + lqD rho m := by linarith
  have hr : (1 : ℚ) - rho ≠ 0 := by
    have : (0 : ℚ) < 1 - rho := by linarith
    exact this.ne'
  unfold lqVal
  rw [← pc_numerator_mul_lqD rho m h0 h1 hm]
  have hsplit : pc_numerator rho m * lqD rho m + pc_numerator rho m
      = pc_numerator rho m * (1 + lqD rho m) := by ring
  rw [hsplit]
  have hTd : pc_numerator rho m / (pc_numerator rho m * (1 + lqD rho m))
      = 1 / (1 + lqD rho m) := by
    rw [← div_div, div_self hT.ne']
  rw [hTd]
  ring

theorem ratioSum_strict_anti (m : ℕ) (hm : 1 ≤ m) (rho1 rho2 : ℚ)
    (h1 : 0 < rho1) (h12 : rho1 < rho2) :
    ratioSum rho2 m < ratioSum rho1 m := by
  unfold ratioSum
  refine Finset.sum_lt_sum_of_nonempty ⟨0, Finset.mem_range.mpr hm⟩ fun n hn => ?_
  have hnm : n < m := Finset.mem_range.mp hn
  have hmq : (0 : ℚ) < (m : ℚ) := by exact_mod_cast hm
  have ha1 : (0 : ℚ) < (m : ℚ) * rho1 := mul_pos hmq h1
  have hbase : (m : ℚ) * rho1 < (m : ℚ) * rho2 := mul_lt_mul_of_pos_left h12 hmq
  have hk : m - n ≠ 0 := by omega
  have hpow : ((m : ℚ) * rho1) ^ (m - n) < ((m : ℚ) * rho2) ^ (m - n) :=
    pow_lt_pow_left₀ hbase ha1.le hk
  have hnum : (0 : ℚ) < (Nat.factorial m : ℚ) / (Nat.factorial n : ℚ) :=
    div_pos (factorial_q_pos m) (factorial_q_pos n)
  exact div_lt_div_of_pos_left hnum (pow_pos ha1 _) hpow

theorem lqD_strict_anti (m : ℕ) (hm : 1 ≤ m) (rho1 rho2 : ℚ)
    (h1 : 0 < rho1) (h12 : rho1 < rho2) (h2 : rho2 < 1) :
    lqD rho2 m < lqD rho1 m := by
  unfold lqD
  have hs := ratioSum_strict_anti m hm rho1 rho2 h1 h12
  have hs2 : 0 ≤ ratioSum rho2 m := ratioSum_nonneg rho2 m (by linarith)
  have e1 : (1 : ℚ) - rho2 < 1 - rho1 := by linarith
  have e2 : (0 : ℚ) ≤ 1 - rho2 := by linarith
  exact mul_lt_mul'' e1 hs e2 hs2

/-- Claim C7: for every fixed integer `c >= 1`, the mean queue length computed
by `calculate_lq` is strictly increasing in `rho` on `(0, 1)`. -/
theorem claim_C7 (c : ℤ) (rho1 rho2 : ℚ) (hc : 1 ≤ c) (h1 : 0 < rho1)
    (h12 : rho1 < rho2) (h2 : rho2 < 1) :
    ∃ x1 x2, calculate_lq rho1 c = .ok (.fin x1) ∧
      calculate_lq rho2 c = .ok (.fin x2) ∧ x1 < x2 := by
  have hm : 1 ≤ c.toNat := by omega
  have h1lt : rho1 < 1 := lt_trans h12 h2
  have h20 : 0 < rho2 := lt_trans h1 h12
  refine ⟨lqVal rho1 c.toNat, lqVal rho2 c.toNat,
    calculate_lq_eval rho1 c h1.le h1lt (by omega) hm,
    calculate_lq_eval rho2 c h20.le h2 (by omega) hm, ?_⟩
  rw [lqVal_closed_form rho1 c.toNat h1 h1lt hm,
    lqVal_closed_form rho2 c.toNat h20 h2 hm]
  have hD1 : 0 ≤ lqD rho1 c.toNat := lqD_nonneg _ _ h1.le h1lt.le
  have hD2 : 0 ≤ lqD rho2 c.toNat := lqD_nonneg _ _ h20.le h2.le
  have hDlt : lqD rho2 c.toNat < lqD rho1 c.toNat :=
    lqD_strict_anti c.toNat hm rho1 rho2 h1 h12 h2
  have hf : rho1 / (1 - rho1) < rho2 / (1 - rho2) := by
    rw [div_lt_div_iff₀ (by linarith) (by linarith)]
    nlinarith
  have hf0 : 0 ≤ rho1 / (1 - rho1) := div_nonneg h1.le (by linarith)
  have hg : 1 / (1 + lqD rho1 c.toNat) < 1 / (1 + lqD rho2 c.toNat) :=
    one_div_lt_one_div_of_lt (by linarith) (by linarith)
  have hg0 : 0 ≤ 1 / (1 + lqD rho1 c.toNat) := by positivity
  exact mul_lt_mul'' hf hg hf0 hg0

/-- Witness for claim C7 at `c = 1`, `rho1 = 1/4`, `rho2 = 1/2`. -/
theorem claim_C7_witness :
    (1 : ℤ) ≤ 1 ∧ (0 : ℚ) < 1/4 ∧ (1/4 : ℚ) < 1/2 ∧ (1/2 : ℚ) < 1 ∧
    (∃ x1 x2, calculate_lq (1/4) 1 = .ok (.fin x1) ∧
      calculate_lq (1/2) 1 = .ok (.fin x2) ∧ x1 < x2) :=
  ⟨le_refl 1, by norm_num, by norm_num, by norm_num,
    claim_C7 1 (1/4) (1/2) (le_refl 1) (by norm_num) (by norm_num) (by norm_num)⟩
